import Mathlib

/-!
# Verification of the `meanwhile` worker pool (src/meanwhile.py)

A shallow embedding of the state-bearing core of `meanwhile.py`:

* the `Job` object's stores (`_queue`, `_inputs`, `_results`, `_exceptions`,
  `_n_attempts`) and the operations that mutate them (`add`, `add_many`,
  the worker's dequeue-and-process step, `retry`, `retry_all`);
* the thread-spawning arithmetic of `Job._start`;
* the Python `threading.Lock` semantics used by `pause`/`resume`;
* the `try`/`except KeyboardInterrupt` skeleton of `Job.wait`;
* the lock-acquisition traces of each public operation.

Python dictionaries are modelled as association lists keyed by a type with
decidable equality; Python sets as duplicate-free insertion into a list;
the FIFO `queue.Queue` as a list popped at the head and pushed at the tail.
A worker's in-flight item (popped from the queue, outcome not yet written
back) is modelled explicitly by an `inflight` field, so that the interval
between `self._queue.get(...)` and the result/requeue/exception write of
`Job._start.worker` (meanwhile.py lines 230-244) is observable.
-/

namespace Meanwhile

section Dict

variable {α : Type} {β : Type} [DecidableEq α]

/-- Lookup in a Python-dict model (association list): `d[k]` as an `Option`. -/
def dget (d : List (α × β)) (k : α) : Option β :=
  (d.find? (fun p => decide (p.1 = k))).map Prod.snd

/-- `k in d` for the dict model. -/
def dhas (d : List (α × β)) (k : α) : Bool :=
  (dget d k).isSome

/-- `del d[k]` (no error when absent; the sources guard their `del`s). -/
def ddel (d : List (α × β)) (k : α) : List (α × β) :=
  d.filter (fun p => decide (p.1 ≠ k))

/-- `d[k] = v`: overwrite any previous binding of `k`. -/
def dset (d : List (α × β)) (k : α) (v : β) : List (α × β) :=
  (k, v) :: ddel d k

/-- `list(d)`: the keys of the dict model. -/
def dkeys (d : List (α × β)) : List α :=
  d.map Prod.fst

/-- Python set insertion (`s.add(a)`): idempotent. -/
def sinsert (a : α) (l : List α) : List α :=
  if a ∈ l then l else a :: l

end Dict

/-- Outcome of one invocation of the target function on one input:
it returns a value or raises an exception. -/
inductive Outcome (ε ρ : Type) : Type where
  | ok (v : ρ)
  | err (e : ε)
  deriving DecidableEq

/-- The store-bearing state of a `Job` (meanwhile.py lines 150-171):
`_queue` (FIFO of `(arg, attempt)` pairs), the in-flight items currently
held by workers between dequeue and write-back, `_inputs`, `_results`,
`_exceptions`, and `_n_attempts`.  Thread bookkeeping (`_threads`,
`_n_threads`) is modelled separately for `_start` (see `startSpawnCount`). -/
structure Job (α ε ρ : Type) : Type where
  queue : List (α × Nat)
  inflight : List (α × Nat)
  inputs : List α
  results : List (α × ρ)
  exceptions : List (α × ε)
  n_attempts : Nat
  deriving DecidableEq

variable {α ε ρ : Type} [DecidableEq α]

/-- A fresh `Job` (meanwhile.py `__init__`): everything empty. -/
def initJob (n : Nat) : Job α ε ρ :=
  ⟨[], [], [], [], [], n⟩

/-- `Job.add` (meanwhile.py lines 256-266): under `_ilock`, if
`arg not in self._inputs or force`, add `arg` to `_inputs` and put
`(arg, 1)` on the queue.  (The `self._start()` call only spawns threads
and does not touch these stores.) -/
def Job.add (st : Job α ε ρ) (arg : α) (force : Bool) : Job α ε ρ :=
  if arg ∉ st.inputs ∨ force = true then
    { st with inputs := sinsert arg st.inputs, queue := st.queue ++ [(arg, 1)] }
  else st

/-- `Job.add_many` (meanwhile.py lines 268-279): the same conditional
insert, folded over the iterable under one `_ilock` hold. -/
def Job.addMany (st : Job α ε ρ) (args : List α) (force : Bool) : Job α ε ρ :=
  args.foldl (fun s a =>
    if a ∉ s.inputs ∨ force = true then
      { s with inputs := sinsert a s.inputs, queue := s.queue ++ [(a, 1)] }
    else s) st

/-- A worker's `self._queue.get(timeout = 1)` (meanwhile.py line 231):
remove the head item from the FIFO queue and hold it in flight.
On an empty queue the real worker exits; the state is unchanged. -/
def Job.pop (st : Job α ε ρ) : Job α ε ρ :=
  match st.queue with
  | [] => st
  | it :: rest => { st with queue := rest, inflight := st.inflight ++ [it] }

/-- The write-back of one attempt (meanwhile.py lines 232-244): on success
`self._results[arg] = result`; on an exception, requeue `(arg, attempt+1)`
when `attempt < self._n_attempts`, else `self._exceptions[arg] = e`. -/
def Job.processItem (st : Job α ε ρ) (arg : α) (attempt : Nat) (out : Outcome ε ρ) :
    Job α ε ρ :=
  match out with
  | .ok v => { st with results := dset st.results arg v }
  | .err e =>
      if attempt < st.n_attempts then
        { st with queue := st.queue ++ [(arg, attempt + 1)] }
      else
        { st with exceptions := dset st.exceptions arg e }

/-- A worker finishing its in-flight item number `i` with outcome `out`:
the item leaves the in-flight set and `processItem` writes the outcome. -/
def Job.finish (st : Job α ε ρ) (i : Nat) (out : Outcome ε ρ) : Job α ε ρ :=
  match st.inflight.get? i with
  | none => st
  | some (arg, att) =>
      Job.processItem { st with inflight := st.inflight.eraseIdx i } arg att out

/-- `Job.retry` (meanwhile.py lines 464-471): under `_elock` delete the
recorded exception if present, then `self.add(arg, force = True)`. -/
def Job.retry (st : Job α ε ρ) (arg : α) : Job α ε ρ :=
  Job.add { st with exceptions := ddel st.exceptions arg } arg true

/-- `Job.retry_all` (meanwhile.py lines 480-489): under `_elock`, drain
every key of `_exceptions`, then `add_many` them all with `force = True`. -/
def Job.retryAll (st : Job α ε ρ) : Job α ε ρ :=
  Job.addMany { st with exceptions := [] } (dkeys st.exceptions) true

/-- One observable pool event: a caller submission, a worker dequeue,
a worker write-back, or a retry.  The nondeterminism of scheduling and of
the target function is carried by the event parameters. -/
inductive Op (α ε ρ : Type) : Type where
  | add (arg : α) (force : Bool)
  | addMany (args : List α) (force : Bool)
  | pop
  | finish (i : Nat) (out : Outcome ε ρ)
  | retry (arg : α)
  | retryAll
  deriving DecidableEq

/-- Apply one event. -/
def Job.step (st : Job α ε ρ) : Op α ε ρ → Job α ε ρ
  | .add arg force => st.add arg force
  | .addMany args force => st.addMany args force
  | .pop => st.pop
  | .finish i out => st.finish i out
  | .retry arg => st.retry arg
  | .retryAll => st.retryAll

/-- Run a sequence of events. -/
def Job.run (st : Job α ε ρ) (ops : List (Op α ε ρ)) : Job α ε ρ :=
  ops.foldl Job.step st

/-- Number of copies of input `a` sitting in the queue. -/
def queueCount (st : Job α ε ρ) (a : α) : Nat :=
  st.queue.countP (fun p => decide (p.1 = a))

/-- Number of attempts of input `a` currently being processed by workers. -/
def inflightCount (st : Job α ε ρ) (a : α) : Nat :=
  st.inflight.countP (fun p => decide (p.1 = a))

/-- Copies of `a` in circulation: queued or in flight. -/
def circCount (st : Job α ε ρ) (a : α) : Nat :=
  queueCount st a + inflightCount st a

/-! ## Thread spawning: `Job._start` (meanwhile.py lines 246-254)

`_start` computes `new_threads = self._n_threads - len(self._threads)` and
runs `for j in range(new_threads)`, spawning one thread per iteration.
`range` of a non-positive number is empty, so the number of threads
actually spawned is the clamp of that difference to zero. -/

/-- Number of loop iterations of `for j in range(self._n_threads - len(self._threads))`. -/
def startSpawnCount (n_threads : Int) (n_live : Nat) : Nat :=
  (n_threads - (n_live : Int)).toNat

/-- The thread registry after `_start`: one fresh tid (drawn from the
supply `fresh`, standing for `_generate_tid`'s random draws) is registered
per loop iteration. -/
def startThreads (threads : List String) (n_threads : Int) (fresh : List String) :
    List String :=
  threads ++ fresh.take (startSpawnCount n_threads threads.length)

/-! ## Python `threading.Lock` and `pause`/`resume` (meanwhile.py lines 393-405)

`pause` runs `self._block.acquire(False)`: a non-blocking acquire that
returns immediately whether or not it got the lock.  `resume` runs
`self._block.release()`: releasing an *unlocked* `threading.Lock` raises
`RuntimeError` in Python. -/

/-- Python exceptions surfaced by the embedded fragments. -/
inductive PyErr : Type where
  | runtimeError
  deriving DecidableEq

/-- `lock.acquire(blocking=False)`: returns the new lock state and whether
the acquisition succeeded; never blocks, never raises. -/
def lockAcquireNB (locked : Bool) : Bool × Bool :=
  if locked then (true, false) else (true, true)

/-- `lock.release()`: unlocks a locked lock; raises `RuntimeError` on an
unlocked one. -/
def lockRelease (locked : Bool) : Except PyErr Bool :=
  if locked then .ok false else .error .runtimeError

/-- The pause gate `self._block`: locked means paused. -/
structure PauseState : Type where
  block : Bool
  deriving DecidableEq

/-- `Job.pause` (meanwhile.py lines 393-398): `self._block.acquire(False)`,
result discarded.  Total: it cannot raise and cannot block. -/
def Job.pause (s : PauseState) : PauseState :=
  { block := (lockAcquireNB s.block).1 }

/-- `Job.resume` (meanwhile.py lines 400-405): `self._block.release()`. -/
def Job.resume (s : PauseState) : Except PyErr PauseState :=
  (lockRelease s.block).map (fun b => { block := b })

/-! ## The `try`/`except KeyboardInterrupt` skeleton of `Job.wait`
(meanwhile.py lines 321-362)

The body of `wait` either finishes normally or raises `KeyboardInterrupt`
(from the user, or from the internal `raise KeyboardInterrupt()` that
implements the timeout).  The handler is

    except KeyboardInterrupt:
        if show_status and not _plock.locked():
            with _plock:
                _hide_status()

and then control falls off the end of `wait`, which therefore returns
normally.  The observable console state is the module-global `_status`. -/

/-- `KeyboardInterrupt`. -/
inductive KI : Type where
  | mk
  deriving DecidableEq

/-- The console's status line: the module global `_status`
(meanwhile.py line 61). -/
structure Console : Type where
  status : Option String
  deriving DecidableEq

/-- `_hide_status` (meanwhile.py lines 66-88): erases the shown status and
sets `_status = None`. -/
def hideStatus (_c : Console) : Console :=
  ⟨none⟩

/-- The exception handling of `Job.wait`: given the outcome of the `try`
body and whether `_plock` was held at that moment, produce `wait`'s own
outcome and the console state.  The `KeyboardInterrupt` branch mirrors
meanwhile.py lines 359-362. -/
def Job.waitExcept (show_status : Bool) (plockHeld : Bool) (c : Console)
    (inner : Except KI Unit) : Except KI Unit × Console :=
  match inner with
  | .ok _ => (.ok (), c)
  | .error _ =>
      if show_status && !plockHeld then (.ok (), hideStatus c) else (.ok (), c)

/-! ## Lock-acquisition traces (for the shared-resource policy)

The five component locks of a `Job` named by the spec: `_ilock` (input
set), `_rlock` (results), `_elock` (exceptions), `_tlock` (thread dict),
`_plock` (paused-counter, the instance field of line 180).  Each public
operation's acquisitions and releases of these locks, in program order,
are transcribed from the source.  (The pause gate `_block` and the
internal lock of `queue.Queue` are not among the five.) -/

/-- The five per-`Job` component locks. -/
inductive CLock : Type where
  | ilock
  | rlock
  | elock
  | tlock
  | pclock
  deriving DecidableEq

/-- A lock event: acquire or release one component lock. -/
inductive LockEv : Type where
  | acq (l : CLock)
  | rel (l : CLock)
  deriving DecidableEq

/-- Update the multiset of held locks by one event. -/
def heldStep (held : List CLock) : LockEv → List CLock
  | .acq l => held ++ [l]
  | .rel l => held.filter (fun h => decide (h ≠ l))

/-- Largest number of simultaneously held component locks along a trace,
starting from the given held set. -/
def maxHeldAux : List CLock → List LockEv → Nat
  | held, [] => held.length
  | held, ev :: rest => max held.length (maxHeldAux (heldStep held ev) rest)

/-- Largest number of simultaneously held component locks along a trace. -/
def maxHeld (tr : List LockEv) : Nat :=
  maxHeldAux [] tr

/-- `Job._start` (lines 248-254): `with self._tlock: ...`. -/
def startLockTrace : List LockEv :=
  [.acq .tlock, .rel .tlock]

/-- `Job.add` (lines 256-266): `with self._ilock:` around the membership
check; when the input is enqueued (`hit`), `self._start()` runs *inside*
that block. -/
def addLockTrace (hit : Bool) : List LockEv :=
  [.acq .ilock] ++ (if hit then startLockTrace else []) ++ [.rel .ilock]

/-- `Job.add_many` (lines 268-279): the `_ilock` block around the loop,
then `self._start()` after it. -/
def addManyLockTrace : List LockEv :=
  [.acq .ilock, .rel .ilock] ++ startLockTrace

/-- `Job.retry` (lines 464-471): the `_elock` block around the guarded
delete, then `self.add(arg, force=True)` (which always enqueues). -/
def retryLockTrace : List LockEv :=
  [.acq .elock, .rel .elock] ++ addLockTrace true

/-- `Job.retry_all` (lines 480-489): `self.add_many(args, force=True)` is
called *inside* the `with self._elock:` block. -/
def retryAllLockTrace : List LockEv :=
  [.acq .elock] ++ addManyLockTrace ++ [.rel .elock]

/-- A fixed acquisition order on the component locks, matching the nesting
the source actually uses (`_elock` outermost, then `_ilock`, then
`_tlock`). -/
def lockRank : CLock → Nat
  | .elock => 0
  | .ilock => 1
  | .rlock => 2
  | .tlock => 3
  | .pclock => 4

/-- A trace is order-respecting when every acquisition happens with only
strictly lower-ranked locks held — the standard criterion excluding
lock-ordering deadlocks. -/
def orderedAux : List CLock → List LockEv → Bool
  | _, [] => true
  | held, .acq l :: rest =>
      held.all (fun h => decide (lockRank h < lockRank l)) &&
        orderedAux (held ++ [l]) rest
  | held, .rel l :: rest => orderedAux (held.filter (fun h => decide (h ≠ l))) rest

/-- A trace is order-respecting (started from no locks held). -/
def orderedTrace (tr : List LockEv) : Bool :=
  orderedAux [] tr

/-! ## Derived notions used by the theorems -/

/-- The event schedule of an always-failing input: `k` rounds of a worker
dequeuing the head item and having the target function raise `e`. -/
def failOps (k : Nat) (e : ε) : List (Op α ε ρ) :=
  (List.replicate k [Op.pop, Op.finish 0 (Outcome.err e)]).flatten

/-- The pool invariant maintained by the non-forced operations: every
input has at most one attempt in circulation, is never in both stores at
once, is out of circulation once an outcome is recorded, and is registered
in `_inputs` whenever it is in circulation or has an outcome. -/
def Inv (st : Job α ε ρ) : Prop :=
  ∀ a : α,
    circCount st a ≤ 1 ∧
    ¬(dhas st.results a = true ∧ dhas st.exceptions a = true) ∧
    (dhas st.results a = true → circCount st a = 0) ∧
    (dhas st.exceptions a = true → circCount st a = 0) ∧
    ((0 < circCount st a ∨ dhas st.results a = true ∨ dhas st.exceptions a = true) →
      a ∈ st.inputs)

/-- States reachable from a fresh `Job` using non-forced submissions,
worker steps, and `retry` of inputs whose exception is currently
recorded (the discipline under which the exclusivity and
sequential-attempt guarantees hold). -/
inductive GoodReach {α ε ρ : Type} [DecidableEq α] : Job α ε ρ → Prop where
  | init (n : Nat) : GoodReach (initJob n)
  | add (st : Job α ε ρ) (a : α) : GoodReach st → GoodReach (st.add a false)
  | addMany (st : Job α ε ρ) (args : List α) :
      GoodReach st → GoodReach (st.addMany args false)
  | pop (st : Job α ε ρ) : GoodReach st → GoodReach st.pop
  | finish (st : Job α ε ρ) (i : Nat) (out : Outcome ε ρ) :
      GoodReach st → GoodReach (st.finish i out)
  | retry (st : Job α ε ρ) (a : α) :
      GoodReach st → dhas st.exceptions a = true → GoodReach (st.retry a)

/-! ## Helper lemmas about the dict / set / count models -/

theorem dhas_iff {β : Type} {d : List (α × β)} {k : α} :
    dhas d k = true ↔ ∃ p ∈ d, p.1 = k := by
  simp [dhas, dget, List.find?_isSome]

theorem dhas_dset_iff {β : Type} {d : List (α × β)} {k k' : α} {v : β} :
    dhas (dset d k v) k' = true ↔ (k' = k ∨ dhas d k' = true) := by
  by_cases hk : k' = k
  · subst hk
    constructor
    · intro _
      exact Or.inl rfl
    · intro _
      rw [dhas_iff]
      exact ⟨(k', v), List.mem_cons_self _ _, rfl⟩
  · constructor
    · intro hL
      rw [dhas_iff] at hL
      obtain ⟨p, hp, hpk⟩ := hL
      rcases List.mem_cons.mp hp with h | h
      · rw [h] at hpk
        exact absurd hpk.symm hk
      · exact Or.inr (dhas_iff.mpr ⟨p, (List.mem_filter.mp h).1, hpk⟩)
    · rintro (h | hR)
      · exact absurd h hk
      · rw [dhas_iff] at hR ⊢
        obtain ⟨p, hp, hpk⟩ := hR
        exact ⟨p, List.mem_cons_of_mem _ (List.mem_filter.mpr ⟨hp, by simp [hpk, hk]⟩), hpk⟩

theorem dhas_ddel_iff {β : Type} {d : List (α × β)} {k k' : α} :
    dhas (ddel d k) k' = true ↔ (k' ≠ k ∧ dhas d k' = true) := by
  by_cases hk : k' = k
  · subst hk
    constructor
    · intro hL
      rw [dhas_iff] at hL
      obtain ⟨p, hp, hpk⟩ := hL
      have h2 := (List.mem_filter.mp hp).2
      rw [hpk] at h2
      simp at h2
    · rintro ⟨h, _⟩
      exact absurd rfl h
  · constructor
    · intro hL
      rw [dhas_iff] at hL
      obtain ⟨p, hp, hpk⟩ := hL
      exact ⟨hk, dhas_iff.mpr ⟨p, (List.mem_filter.mp hp).1, hpk⟩⟩
    · rintro ⟨_, hR⟩
      rw [dhas_iff] at hR ⊢
      obtain ⟨p, hp, hpk⟩ := hR
      exact ⟨p, List.mem_filter.mpr ⟨hp, by simp [hpk, hk]⟩, hpk⟩

theorem dget_dset_self {β : Type} {d : List (α × β)} {k : α} {v : β} :
    dget (dset d k v) k = some v := by
  simp [dget, dset, List.find?_cons_of_pos]

theorem ddel_of_dget_none {β : Type} {d : List (α × β)} {k : α}
    (h : dget d k = none) : ddel d k = d := by
  rw [dget, Option.map_eq_none'] at h
  rw [List.find?_eq_none] at h
  rw [ddel, List.filter_eq_self]
  intro p hp
  simpa using h p hp

theorem mem_sinsert_self {a : α} {l : List α} : a ∈ sinsert a l := by
  by_cases h : a ∈ l <;> simp [sinsert, h]

theorem mem_sinsert_iff {a b : α} {l : List α} :
    b ∈ sinsert a l ↔ (b = a ∨ b ∈ l) := by
  by_cases h : a ∈ l
  · simp only [sinsert, if_pos h]
    exact ⟨Or.inr, fun hb => hb.elim (fun hba => hba ▸ h) id⟩
  · simp [sinsert, h]

theorem countP_eraseIdx_get? {γ : Type} (p : γ → Bool) :
    ∀ (l : List γ) (i : Nat) (x : γ), l.get? i = some x →
      l.countP p = (l.eraseIdx i).countP p + (if p x then 1 else 0)
  | [], i, x, h => by simp at h
  | a :: t, 0, x, h => by
      rw [List.get?_cons_zero, Option.some.injEq] at h
      subst h
      simp [List.countP_cons]
  | a :: t, i + 1, x, h => by
      rw [List.get?_cons_succ] at h
      have ih := countP_eraseIdx_get? p t i x h
      rw [List.eraseIdx_cons_succ, List.countP_cons, List.countP_cons, ih]
      omega

/-! ## Characterizations of the operations -/

theorem add_of_mem {st : Job α ε ρ} {a : α} (h : a ∈ st.inputs) :
    st.add a false = st := by
  simp [Job.add, h]

theorem add_of_not_mem {st : Job α ε ρ} {a : α} (h : a ∉ st.inputs) :
    st.add a false =
      { st with inputs := sinsert a st.inputs, queue := st.queue ++ [(a, 1)] } := by
  simp [Job.add, h]

theorem add_force (st : Job α ε ρ) (a : α) :
    st.add a true =
      { st with inputs := sinsert a st.inputs, queue := st.queue ++ [(a, 1)] } := by
  simp [Job.add]

theorem addMany_eq_foldl (st : Job α ε ρ) (args : List α) (force : Bool) :
    st.addMany args force = args.foldl (fun s a => s.add a force) st := rfl

/-! ## Preservation of the pool invariant -/

theorem inv_init (n : Nat) : Inv (initJob n : Job α ε ρ) := by
  intro a
  simp [initJob, circCount, queueCount, inflightCount, dhas, dget]

theorem inv_add {st : Job α ε ρ} (h : Inv st) (a : α) : Inv (st.add a false) := by
  by_cases hm : a ∈ st.inputs
  · rw [add_of_mem hm]
    exact h
  · rw [add_of_not_mem hm]
    intro b
    obtain ⟨h1, h2, h3, h4, h5⟩ := h b
    by_cases hb : a = b
    · subst hb
      have hc0 : circCount st a = 0 := by
        rcases Nat.eq_zero_or_pos (circCount st a) with h0 | hp
        · exact h0
        · exact absurd (h5 (Or.inl hp)) hm
      have hr : ¬ dhas st.results a = true := fun hr => hm (h5 (Or.inr (Or.inl hr)))
      have he : ¬ dhas st.exceptions a = true := fun he => hm (h5 (Or.inr (Or.inr he)))
      refine ⟨?_, ?_, ?_, ?_, ?_⟩
      · have hcq : st.queue.countP (fun p => decide (p.1 = a)) = 0 := by
          simp only [circCount, queueCount, inflightCount] at hc0
          omega
        have hci : st.inflight.countP (fun p => decide (p.1 = a)) = 0 := by
          simp only [circCount, queueCount, inflightCount] at hc0
          omega
        simp [circCount, queueCount, inflightCount, List.countP_append,
          List.countP_cons, hcq, hci]
      · exact h2
      · intro hcr
        exact absurd hcr hr
      · intro hce
        exact absurd hce he
      · intro _
        exact mem_sinsert_self
    · have hcount :
          circCount
            { st with inputs := sinsert a st.inputs, queue := st.queue ++ [(a, 1)] } b
            = circCount st b := by
        simp [circCount, queueCount, inflightCount, List.countP_append,
          List.countP_cons, hb]
      refine ⟨?_, ?_, ?_, ?_, ?_⟩
      · rw [hcount]
        exact h1
      · exact h2
      · intro hcr
        rw [hcount]
        exact h3 hcr
      · intro hce
        rw [hcount]
        exact h4 hce
      · intro hor
        rw [mem_sinsert_iff]
        refine Or.inr (h5 ?_)
        rcases hor with hc | hro | heo
        · exact Or.inl (by rwa [hcount] at hc)
        · exact Or.inr (Or.inl hro)
        · exact Or.inr (Or.inr heo)

theorem inv_addMany_aux :
    ∀ (args : List α) (st : Job α ε ρ), Inv st →
      Inv (args.foldl (fun s a => s.add a false) st)
  | [], _, h => h
  | a :: t, st, h => by
      rw [List.foldl_cons]
      exact inv_addMany_aux t _ (inv_add h a)

theorem inv_addMany {st : Job α ε ρ} (h : Inv st) (args : List α) :
    Inv (st.addMany args false) := by
  rw [addMany_eq_foldl]
  exact inv_addMany_aux args st h

theorem inv_pop {st : Job α ε ρ} (h : Inv st) : Inv st.pop := by
  rcases hq : st.queue with _ | ⟨it, rest⟩
  · have hid : st.pop = st := by simp [Job.pop, hq]
    rwa [hid]
  · have hpop : st.pop = { st with queue := rest, inflight := st.inflight ++ [it] } := by
      simp [Job.pop, hq]
    rw [hpop]
    intro b
    obtain ⟨h1, h2, h3, h4, h5⟩ := h b
    have hcount :
        circCount { st with queue := rest, inflight := st.inflight ++ [it] } b
          = circCount st b := by
      by_cases hib : it.1 = b
      · simp [circCount, queueCount, inflightCount, List.countP_append,
          List.countP_cons, hq, hib]
        omega
      · simp [circCount, queueCount, inflightCount, List.countP_append,
          List.countP_cons, hq, hib]
    refine ⟨?_, ?_, ?_, ?_, ?_⟩
    · rw [hcount]
      exact h1
    · exact h2
    · intro hcr
      rw [hcount]
      exact h3 hcr
    · intro hce
      rw [hcount]
      exact h4 hce
    · intro hor
      refine h5 ?_
      rcases hor with hc | hro | heo
      · exact Or.inl (by rwa [hcount] at hc)
      · exact Or.inr (Or.inl hro)
      · exact Or.inr (Or.inr heo)

theorem inv_finish {st : Job α ε ρ} (h : Inv st) (i : Nat) (out : Outcome ε ρ) :
    Inv (st.finish i out) := by
  rcases hg : st.inflight.get? i with _ | ⟨⟨arg, att⟩⟩
  · have hg' : st.inflight[i]? = none := by rwa [List.get?_eq_getElem?] at hg
    have hid : st.finish i out = st := by simp [Job.finish, hg']
    rwa [hid]
  · have hg' : st.inflight[i]? = some (arg, att) := by
      rwa [List.get?_eq_getElem?] at hg
    have hfin : st.finish i out =
        Job.processItem { st with inflight := st.inflight.eraseIdx i } arg att out := by
      simp [Job.finish, hg']
    have hmem : (arg, att) ∈ st.inflight := List.get?_mem hg
    have hipos : 0 < st.inflight.countP (fun p => decide (p.1 = arg)) :=
      List.countP_pos_iff.mpr ⟨(arg, att), hmem, by simp⟩
    have herase : ∀ b : α,
        st.inflight.countP (fun p => decide (p.1 = b)) =
          (st.inflight.eraseIdx i).countP (fun p => decide (p.1 = b)) +
            (if arg = b then 1 else 0) := by
      intro b
      have hh := countP_eraseIdx_get? (fun p => decide (p.1 = b)) st.inflight i (arg, att) hg
      simpa using hh
    rw [hfin]
    -- common count facts for the input being processed
    obtain ⟨ha1, ha2, ha3, ha4, ha5⟩ := h arg
    have hcircpos : 0 < circCount st arg := by
      simp only [circCount, queueCount, inflightCount]
      omega
    have hargq : st.queue.countP (fun p => decide (p.1 = arg)) = 0 := by
      have := ha1
      simp only [circCount, queueCount, inflightCount] at this
      omega
    have hargi1 : st.inflight.countP (fun p => decide (p.1 = arg)) = 1 := by
      have := ha1
      simp only [circCount, queueCount, inflightCount] at this
      omega
    have hargerase : (st.inflight.eraseIdx i).countP (fun p => decide (p.1 = arg)) = 0 := by
      have := herase arg
      simp at this
      omega
    have hargr : ¬ dhas st.results arg = true := fun hr => by
      have := ha3 hr
      omega
    have harge : ¬ dhas st.exceptions arg = true := fun he => by
      have := ha4 he
      omega
    rcases out with v | e
    · -- success: the result is recorded, the attempt leaves circulation
      intro b
      obtain ⟨h1, h2, h3, h4, h5⟩ := h b
      by_cases hb : arg = b
      · subst hb
        refine ⟨?_, ?_, ?_, ?_, ?_⟩
        · simp [Job.processItem, circCount, queueCount, inflightCount, hargq, hargerase]
        · rintro ⟨_, he'⟩
          exact harge he'
        · intro _
          simp [Job.processItem, circCount, queueCount, inflightCount, hargq, hargerase]
        · intro he'
          exact absurd he' harge
        · intro _
          exact ha5 (Or.inl hcircpos)
      · have hcount :
            circCount (Job.processItem { st with inflight := st.inflight.eraseIdx i }
              arg att (Outcome.ok v)) b = circCount st b := by
          have := herase b
          simp [Job.processItem, circCount, queueCount, inflightCount, hb] at this ⊢
          omega
        have hres : dhas (dset st.results arg v) b = true ↔ dhas st.results b = true := by
          rw [dhas_dset_iff]
          constructor
          · rintro (hba | hr)
            · exact absurd hba.symm hb
            · exact hr
          · exact Or.inr
        refine ⟨?_, ?_, ?_, ?_, ?_⟩
        · rw [hcount]
          exact h1
        · rintro ⟨hr', he'⟩
          exact h2 ⟨hres.mp hr', he'⟩
        · intro hr'
          rw [hcount]
          exact h3 (hres.mp hr')
        · intro he'
          rw [hcount]
          exact h4 he'
        · intro hor
          refine h5 ?_
          rcases hor with hc | hro | heo
          · exact Or.inl (by rwa [hcount] at hc)
          · exact Or.inr (Or.inl (hres.mp hro))
          · exact Or.inr (Or.inr heo)
    · -- failure: requeue or record, depending on the attempt number
      by_cases hatt : att < st.n_attempts
      · -- requeue (arg, att + 1)
        have hstep :
            Job.processItem { st with inflight := st.inflight.eraseIdx i } arg att
              (Outcome.err e) =
            { st with inflight := st.inflight.eraseIdx i,
                      queue := st.queue ++ [(arg, att + 1)] } := by
          simp [Job.processItem, hatt]
        rw [hstep]
        intro b
        obtain ⟨h1, h2, h3, h4, h5⟩ := h b
        by_cases hb : arg = b
        · subst hb
          refine ⟨?_, ?_, ?_, ?_, ?_⟩
          · simp [circCount, queueCount, inflightCount, List.countP_append,
              List.countP_cons, hargq, hargerase]
          · exact h2
          · intro hr'
            exact absurd hr' hargr
          · intro he'
            exact absurd he' harge
          · intro _
            exact ha5 (Or.inl hcircpos)
        · have hcount :
              circCount { st with inflight := st.inflight.eraseIdx i,
                                  queue := st.queue ++ [(arg, att + 1)] } b
                = circCount st b := by
            have := herase b
            simp [circCount, queueCount, inflightCount, List.countP_append,
              List.countP_cons, hb] at this ⊢
            omega
          refine ⟨?_, ?_, ?_, ?_, ?_⟩
          · rw [hcount]
            exact h1
          · exact h2
          · intro hr'
            rw [hcount]
            exact h3 hr'
          · intro he'
            rw [hcount]
            exact h4 he'
          · intro hor
            refine h5 ?_
            rcases hor with hc | hro | heo
            · exact Or.inl (by rwa [hcount] at hc)
            · exact Or.inr (Or.inl hro)
            · exact Or.inr (Or.inr heo)
      · -- permanent failure: the exception is recorded
        have hstep :
            Job.processItem { st with inflight := st.inflight.eraseIdx i } arg att
              (Outcome.err e) =
            { st with inflight := st.inflight.eraseIdx i,
                      exceptions := dset st.exceptions arg e } := by
          simp [Job.processItem, hatt]
        rw [hstep]
        intro b
        obtain ⟨h1, h2, h3, h4, h5⟩ := h b
        by_cases hb : arg = b
        · subst hb
          refine ⟨?_, ?_, ?_, ?_, ?_⟩
          · simp [circCount, queueCount, inflightCount, hargq, hargerase]
          · rintro ⟨hr', _⟩
            exact hargr hr'
          · intro hr'
            exact absurd hr' hargr
          · intro _
            simp [circCount, queueCount, inflightCount, hargq, hargerase]
          · intro _
            exact ha5 (Or.inl hcircpos)
        · have hcount :
              circCount { st with inflight := st.inflight.eraseIdx i,
                                  exceptions := dset st.exceptions arg e } b
                = circCount st b := by
            have := herase b
            simp [circCount, queueCount, inflightCount, hb] at this ⊢
            omega
          have hexc : dhas (dset st.exceptions arg e) b = true ↔
              dhas st.exceptions b = true := by
            rw [dhas_dset_iff]
            constructor
            · rintro (hba | hE)
              · exact absurd hba.symm hb
              · exact hE
            · exact Or.inr
          refine ⟨?_, ?_, ?_, ?_, ?_⟩
          · rw [hcount]
            exact h1
          · rintro ⟨hr', he'⟩
            exact h2 ⟨hr', hexc.mp he'⟩
          · intro hr'
            rw [hcount]
            exact h3 hr'
          · intro he'
            rw [hcount]
            exact h4 (hexc.mp he')
          · intro hor
            refine h5 ?_
            rcases hor with hc | hro | heo
            · exact Or.inl (by rwa [hcount] at hc)
            · exact Or.inr (Or.inl hro)
            · exact Or.inr (Or.inr (hexc.mp heo))

theorem inv_retry {st : Job α ε ρ} (h : Inv st) {a : α}
    (he : dhas st.exceptions a = true) : Inv (st.retry a) := by
  have hfin : st.retry a =
      { st with exceptions := ddel st.exceptions a,
                inputs := sinsert a st.inputs,
                queue := st.queue ++ [(a, 1)] } := by
    rw [Job.retry, add_force]
  rw [hfin]
  obtain ⟨ha1, ha2, ha3, ha4, ha5⟩ := h a
  have hca : circCount st a = 0 := ha4 he
  have hra : ¬ dhas st.results a = true := fun hr => ha2 ⟨hr, he⟩
  have hcaq : st.queue.countP (fun p => decide (p.1 = a)) = 0 := by
    simp only [circCount, queueCount, inflightCount] at hca
    omega
  have hcai : st.inflight.countP (fun p => decide (p.1 = a)) = 0 := by
    simp only [circCount, queueCount, inflightCount] at hca
    omega
  intro b
  obtain ⟨h1, h2, h3, h4, h5⟩ := h b
  by_cases hb : a = b
  · subst hb
    refine ⟨?_, ?_, ?_, ?_, ?_⟩
    · simp [circCount, queueCount, inflightCount, List.countP_append,
        List.countP_cons, hcaq, hcai]
    · rintro ⟨_, he'⟩
      rw [dhas_ddel_iff] at he'
      exact he'.1 rfl
    · intro hr'
      exact absurd hr' hra
    · intro he'
      rw [dhas_ddel_iff] at he'
      exact absurd rfl he'.1
    · intro _
      exact mem_sinsert_self
  · have hcount :
        circCount { st with exceptions := ddel st.exceptions a,
                            inputs := sinsert a st.inputs,
                            queue := st.queue ++ [(a, 1)] } b
          = circCount st b := by
      simp [circCount, queueCount, inflightCount, List.countP_append,
        List.countP_cons, hb]
    have hexc : dhas (ddel st.exceptions a) b = true ↔
        dhas st.exceptions b = true := by
      rw [dhas_ddel_iff]
      constructor
      · rintro ⟨_, hE⟩
        exact hE
      · intro hE
        exact ⟨fun hba => hb hba.symm, hE⟩
    refine ⟨?_, ?_, ?_, ?_, ?_⟩
    · rw [hcount]
      exact h1
    · rintro ⟨hr', he'⟩
      exact h2 ⟨hr', hexc.mp he'⟩
    · intro hr'
      rw [hcount]
      exact h3 hr'
    · intro he'
      rw [hcount]
      exact h4 (hexc.mp he')
    · intro hor
      rw [mem_sinsert_iff]
      refine Or.inr (h5 ?_)
      rcases hor with hc | hro | heo
      · exact Or.inl (by rwa [hcount] at hc)
      · exact Or.inr (Or.inl hro)
      · exact Or.inr (Or.inr (hexc.mp heo))

theorem run_append (st : Job α ε ρ) (l1 l2 : List (Op α ε ρ)) :
    st.run (l1 ++ l2) = (st.run l1).run l2 := by
  simp [Job.run, List.foldl_append]

omit [DecidableEq α] in
theorem failOps_succ (k : Nat) (e : ε) :
    (failOps (k + 1) e : List (Op α ε ρ)) =
      [Op.pop, Op.finish 0 (Outcome.err e)] ++ failOps k e := by
  simp [failOps, List.replicate_succ]

theorem run_fail_chain (a : α) (e : ε) :
    ∀ (k t : Nat) (I : List α) (R : List (α × ρ)) (E : List (α × ε)) (n : Nat),
      t + k = n →
      Job.run ⟨[(a, t)], [], I, R, E, n⟩ (failOps (k + 1) e) =
        ⟨[], [], I, R, dset E a e, n⟩
  | 0, t, I, R, E, n, ht => by
      have htn : t = n := by omega
      subst htn
      simp [failOps, Job.run, Job.step, Job.pop, Job.finish, Job.processItem,
        List.eraseIdx, Nat.lt_irrefl]
  | k + 1, t, I, R, E, n, ht => by
      have hlt : t < n := by omega
      have hround :
          Job.run (⟨[(a, t)], [], I, R, E, n⟩ : Job α ε ρ)
              [Op.pop, Op.finish 0 (Outcome.err e)] =
            ⟨[(a, t + 1)], [], I, R, E, n⟩ := by
        simp [Job.run, Job.step, Job.pop, Job.finish, Job.processItem,
          List.eraseIdx, hlt]
      rw [failOps_succ, run_append, hround]
      exact run_fail_chain a e k (t + 1) I R E n (by omega)

theorem add_initJob (n : Nat) (a : α) :
    (initJob n : Job α ε ρ).add a false = ⟨[(a, 1)], [], [a], [], [], n⟩ := by
  simp [initJob, Job.add, sinsert]

theorem goodReach_inv {st : Job α ε ρ} (h : GoodReach st) : Inv st := by
  induction h with
  | init n => exact inv_init n
  | add st a _ ih => exact inv_add ih a
  | addMany st args _ ih => exact inv_addMany ih args
  | pop st _ ih => exact inv_pop ih
  | finish st i out _ ih => exact inv_finish ih i out
  | retry st a _ he ih => exact inv_retry ih he

/-! ## The claims -/

/-- C1 counterexample: the claim's invariant fails under forced
re-submission.  Input `0` permanently fails (with `n_attempts = 1`), is
force re-submitted via `add(0, force=True)` while its exception is
recorded, and then succeeds: the success path of the worker writes
`_results[0]` without clearing `_exceptions[0]`, so `0` ends up present in
both stores simultaneously, and not transiently during a retry. -/
theorem c1_both_stores_counterexample :
    dhas ((initJob 1 : Job Nat Nat Nat).run
        [Op.add 0 false, Op.pop, Op.finish 0 (Outcome.err 7),
         Op.add 0 true, Op.pop, Op.finish 0 (Outcome.ok 3)]).results 0 = true ∧
    dhas ((initJob 1 : Job Nat Nat Nat).run
        [Op.add 0 false, Op.pop, Op.finish 0 (Outcome.err 7),
         Op.add 0 true, Op.pop, Op.finish 0 (Outcome.ok 3)]).exceptions 0 = true := by
  decide

/-- C1 (amended): for every state reached from a fresh pool by non-forced
submissions (`add`/`add_many` without `force`), worker dequeues and
write-backs, and `retry` of inputs whose exception is currently recorded,
no input is ever present in `_results` and `_exceptions` simultaneously.
Forced re-submission via `add(arg, force=True)` of an input whose outcome
is already recorded is excluded: it violates the invariant
(`c1_both_stores_counterexample`). -/
theorem c1_exclusive_stores {st : Job α ε ρ} (h : GoodReach st) (a : α) :
    ¬(dhas st.results a = true ∧ dhas st.exceptions a = true) :=
  (goodReach_inv h a).2.1

/-- Witness for C1: the amended theorem applied to a concrete reachable
state. -/
theorem c1_exclusive_stores_witness :
    ¬(dhas ((initJob 1 : Job Nat Nat Nat).add 0 false).results 0 = true ∧
      dhas ((initJob 1 : Job Nat Nat Nat).add 0 false).exceptions 0 = true) :=
  c1_exclusive_stores (GoodReach.add _ 0 (GoodReach.init 1)) 0

/-- C2 counterexample: with status display enabled and the print lock
free, a `KeyboardInterrupt` reaching `wait`'s handler yields a normal
return (`Except.ok ()`) — the interrupt is swallowed, not re-raised. -/
theorem c2_swallows_interrupt_counterexample :
    Job.waitExcept true false ⟨some "pending: 1"⟩ (Except.error KI.mk) =
      (Except.ok (), (⟨none⟩ : Console)) ∧
    (Except.ok () : Except KI Unit) ≠ Except.error KI.mk := by
  refine ⟨rfl, ?_⟩
  intro hcontra
  exact Except.noConfusion hcontra

/-- C2 (amended): `wait` catches an external interrupt raised while it is
blocked; when status display is enabled and the print lock is free it
erases the displayed status line; and it then returns normally to the
caller instead of re-raising the interrupt. -/
theorem c2_wait_interrupt_cleanup (ss ph : Bool) (c : Console)
    (inner : Except KI Unit) :
    (Job.waitExcept ss ph c inner).1 = Except.ok () ∧
    (inner = Except.error KI.mk → ss = true → ph = false →
      (Job.waitExcept ss ph c inner).2.status = none) := by
  cases inner with
  | ok u => exact ⟨rfl, fun hcontra => Except.noConfusion hcontra⟩
  | error k =>
      cases ss <;> cases ph <;> simp [Job.waitExcept, hideStatus]

/-- Witness for C2: the amended theorem at a concrete interrupted wait. -/
theorem c2_wait_interrupt_cleanup_witness :
    (Job.waitExcept true false ⟨some "pending: 1"⟩ (Except.error KI.mk)).1 =
      Except.ok () ∧
    (Job.waitExcept true false ⟨some "pending: 1"⟩ (Except.error KI.mk)).2.status =
      none :=
  ⟨(c2_wait_interrupt_cleanup true false ⟨some "pending: 1"⟩
      (Except.error KI.mk)).1,
   (c2_wait_interrupt_cleanup true false ⟨some "pending: 1"⟩
      (Except.error KI.mk)).2 rfl rfl rfl⟩

/-- C3 counterexample: `resume()` on a pool that is not paused executes
`self._block.release()` on an unlocked `threading.Lock`, which raises
`RuntimeError`. -/
theorem c3_resume_unpaused_counterexample :
    Job.resume ⟨false⟩ = Except.error PyErr.runtimeError := rfl

/-- C3 (amended): `pause()` is idempotent and total — pausing an
already-paused pool neither deadlocks (the acquire is non-blocking) nor
raises; `resume()` on a paused pool succeeds, but `resume()` on a pool
that is not paused raises `RuntimeError`. -/
theorem c3_pause_resume (s : PauseState) :
    Job.pause (Job.pause s) = Job.pause s ∧
    (s.block = true → Job.resume s = Except.ok ⟨false⟩) ∧
    (s.block = false → Job.resume s = Except.error PyErr.runtimeError) := by
  rcases s with ⟨b⟩
  cases b <;> simp [Job.pause, Job.resume, lockAcquireNB, lockRelease, Except.map]

/-- Witness for C3: the amended theorem at both concrete gate states. -/
theorem c3_pause_resume_witness :
    Job.pause (Job.pause ⟨false⟩) = Job.pause ⟨false⟩ ∧
    Job.resume ⟨true⟩ = Except.ok ⟨false⟩ :=
  ⟨(c3_pause_resume ⟨false⟩).1, (c3_pause_resume ⟨true⟩).2.1 rfl⟩

/-- C4: on an exception from the target function, a worker requeues
`(arg, attempt+1)` (leaving `_exceptions` and everything else unchanged)
when `attempt < n_attempts`, and otherwise records the exception keyed by
the input (leaving `_results` unchanged); consequently an input whose
processing always fails is, after exactly `n_attempts` failed tries from
a fresh pool, present in `_exceptions` and absent from `_results`. -/
theorem c4_retry_until_recorded (n : Nat) (hn : 1 ≤ n) (a : α) (e : ε) :
    (∀ (st : Job α ε ρ) (arg : α) (att : Nat),
        (att < st.n_attempts →
          st.processItem arg att (Outcome.err e) =
            { st with queue := st.queue ++ [(arg, att + 1)] }) ∧
        (¬ att < st.n_attempts →
          st.processItem arg att (Outcome.err e) =
            { st with exceptions := dset st.exceptions arg e })) ∧
    dget (((initJob n : Job α ε ρ).add a false).run (failOps n e)).exceptions a =
      some e ∧
    dget (((initJob n : Job α ε ρ).add a false).run (failOps n e)).results a =
      none := by
  constructor
  · intro st arg att
    exact ⟨fun hlt => by simp [Job.processItem, hlt],
           fun hge => by simp [Job.processItem, hge]⟩
  · have hchain := run_fail_chain a e (n - 1) 1 [a] ([] : List (α × ρ))
      ([] : List (α × ε)) n (by omega)
    rw [show n - 1 + 1 = n from by omega] at hchain
    rw [add_initJob, hchain]
    exact ⟨dget_dset_self, by simp [dget]⟩

/-- Witness for C4: two attempts of an always-failing input with
`n_attempts = 2` end with its exception recorded and no result. -/
theorem c4_retry_until_recorded_witness :
    dget (((initJob 2 : Job Nat Nat Nat).add 0 false).run (failOps 2 5)).exceptions 0 =
      some 5 ∧
    dget (((initJob 2 : Job Nat Nat Nat).add 0 false).run (failOps 2 5)).results 0 =
      none :=
  ⟨(c4_retry_until_recorded 2 (by decide) 0 5).2.1,
   (c4_retry_until_recorded 2 (by decide) 0 5).2.2⟩

/-- C5: submitting the same input a second time without `force` is a
no-op — the whole state (queue, input registry, stores) is left exactly as
after the first submission; likewise `add_many` enqueues a duplicated
input only once. -/
theorem c5_dedup (st : Job α ε ρ) (a : α) :
    (st.add a false).add a false = st.add a false ∧
    st.addMany [a, a] false = st.addMany [a] false := by
  have hmem : a ∈ (st.add a false).inputs := by
    by_cases hm : a ∈ st.inputs
    · rw [add_of_mem hm]
      exact hm
    · rw [add_of_not_mem hm]
      exact mem_sinsert_self
  constructor
  · exact add_of_mem hmem
  · rw [addMany_eq_foldl, addMany_eq_foldl]
    simp only [List.foldl_cons, List.foldl_nil]
    exact add_of_mem hmem

/-- C6 counterexample: with target count 1 and two live threads, `_start`
runs `for j in range(1 - 2)` and spawns 0 threads, not the claimed
`targetCount − liveCount = −1`; the live set is left unchanged. -/
theorem c6_negative_surplus_counterexample :
    startSpawnCount 1 2 = 0 ∧
    ((startSpawnCount 1 2 : Int) ≠ (1 : Int) - 2) ∧
    startThreads ["t1", "t2"] 1 ["t3"] = ["t1", "t2"] := by
  decide

/-- C6 (amended): `_start` spawns exactly `max 0 (targetCount − liveCount)`
new worker threads — the difference clamped at zero, since `range` of a
negative number is empty — each registered under a generated id, so the
live count grows by exactly that clamp. -/
theorem c6_spawn_clamped (n : Int) (live : Nat) (threads fresh : List String)
    (hl : threads.length = live) (hf : startSpawnCount n live ≤ fresh.length) :
    (startSpawnCount n live : Int) = max 0 (n - live) ∧
    (startThreads threads n fresh).length = live + startSpawnCount n live := by
  constructor
  · rw [startSpawnCount, Int.ofNat_toNat, max_comm]
  · simp only [startThreads, List.length_append, List.length_take, hl]
    rw [Nat.min_eq_left hf]

/-- Witness for C6: the amended theorem at target 3 with one live thread. -/
theorem c6_spawn_clamped_witness :
    (startSpawnCount 3 1 : Int) = max 0 (3 - (1 : Nat)) ∧
    (startThreads ["a"] 3 ["b", "c"]).length = 1 + startSpawnCount 3 1 :=
  c6_spawn_clamped 3 1 ["a"] ["b", "c"] rfl (by decide)

/-- C7 counterexample: force re-submission while an attempt of the same
input is in flight lets a second worker dequeue a second copy, so two
attempts of input `0` run concurrently. -/
theorem c7_concurrent_attempts_counterexample :
    ¬ (inflightCount ((initJob 2 : Job Nat Nat Nat).run
        [Op.add 0 false, Op.pop, Op.add 0 true, Op.pop]) 0 ≤ 1) := by
  decide

/-- C7 (amended): within the discipline of non-forced submissions and
retries of inputs whose exception is recorded, at most one attempt of any
given input is ever in flight — processing within one input is strictly
sequential.  Forced re-submission of an input whose attempt is in flight
breaks this (`c7_concurrent_attempts_counterexample`). -/
theorem c7_sequential_attempts {st : Job α ε ρ} (h : GoodReach st) (a : α) :
    inflightCount st a ≤ 1 := by
  have h1 := (goodReach_inv h a).1
  simp only [circCount] at h1
  omega

/-- Witness for C7: the amended theorem at a concrete reachable state with
one in-flight attempt. -/
theorem c7_sequential_attempts_witness :
    inflightCount ((initJob 1 : Job Nat Nat Nat).add 0 false).pop 0 ≤ 1 :=
  c7_sequential_attempts
    (GoodReach.pop _ (GoodReach.add _ 0 (GoodReach.init 1))) 0

/-- C8 counterexample: `retry_all` calls `add_many(args, force=True)` while
still inside its `with self._elock:` block, so it holds the exceptions
lock simultaneously with the input-set lock (and then with the
thread-registry lock): two component locks at once, not one. -/
theorem c8_two_locks_counterexample :
    maxHeld retryAllLockTrace = 2 ∧ ¬ (maxHeld retryAllLockTrace ≤ 1) := by
  decide

/-- C8 (amended): operations hold at most two of the five component locks
at once — `retry_all` holds `_elock` around `add_many`'s `_ilock` and
`_start`'s `_tlock`, and an enqueueing `add` holds `_ilock` around
`_tlock` — and every acquisition respects the fixed order
`_elock < _ilock < _tlock`, so lock-ordering deadlocks remain
impossible. -/
theorem c8_lock_nesting :
    maxHeld retryAllLockTrace = 2 ∧
    maxHeld retryLockTrace = 2 ∧
    maxHeld (addLockTrace true) = 2 ∧
    maxHeld (addLockTrace false) = 1 ∧
    maxHeld addManyLockTrace = 1 ∧
    maxHeld startLockTrace = 1 ∧
    orderedTrace retryAllLockTrace = true ∧
    orderedTrace retryLockTrace = true ∧
    orderedTrace (addLockTrace true) = true ∧
    orderedTrace (addLockTrace false) = true ∧
    orderedTrace addManyLockTrace = true ∧
    orderedTrace startLockTrace = true := by
  decide

/-- C9: `retry(arg)` for an input with no recorded exception — including
one never submitted — raises nothing: it leaves `_exceptions` (and
`_results`) unchanged and still force-enqueues `(arg, 1)`, adding `arg`
to the input registry. -/
theorem c9_retry_without_exception (st : Job α ε ρ) (a : α)
    (h : dget st.exceptions a = none) :
    (st.retry a).exceptions = st.exceptions ∧
    (st.retry a).queue = st.queue ++ [(a, 1)] ∧
    (st.retry a).inputs = sinsert a st.inputs ∧
    (st.retry a).results = st.results := by
  have hd : ddel st.exceptions a = st.exceptions := ddel_of_dget_none h
  have hfin : st.retry a =
      { st with exceptions := ddel st.exceptions a,
                inputs := sinsert a st.inputs,
                queue := st.queue ++ [(a, 1)] } := by
    rw [Job.retry, add_force]
  rw [hfin, hd]
  exact ⟨rfl, rfl, rfl, rfl⟩

/-- Witness for C9: retrying input `0`, never submitted, in a pool whose
only exception is for input `1`. -/
theorem c9_retry_without_exception_witness :
    ((⟨[], [], [], [], [(1, 9)], 1⟩ : Job Nat Nat Nat).retry 0).exceptions =
      [(1, 9)] ∧
    ((⟨[], [], [], [], [(1, 9)], 1⟩ : Job Nat Nat Nat).retry 0).queue = [(0, 1)] ∧
    ((⟨[], [], [], [], [(1, 9)], 1⟩ : Job Nat Nat Nat).retry 0).inputs = [0] ∧
    ((⟨[], [], [], [], [(1, 9)], 1⟩ : Job Nat Nat Nat).retry 0).results = [] :=
  c9_retry_without_exception ⟨[], [], [], [], [(1, 9)], 1⟩ 0 rfl

/-- C10: force re-submission of an input whose success is already
recorded enqueues it again for reprocessing, and a later successful
attempt overwrites the earlier entry — `_results[arg] = result` replaces
the old value, so `_results` holds the most recent successful outcome. -/
theorem c10_result_overwrite (st st2 : Job α ε ρ) (a : α) (w v : ρ) (att : Nat)
    (_h : dget st.results a = some w) :
    (st.add a true).queue = st.queue ++ [(a, 1)] ∧
    dget (st2.processItem a att (Outcome.ok v)).results a = some v := by
  constructor
  · rw [add_force]
  · simp only [Job.processItem]
    exact dget_dset_self

/-- Witness for C10: input `0` has recorded result `7`; a forced re-add
enqueues it, and reprocessing it successfully with value `4` overwrites
the `7`. -/
theorem c10_result_overwrite_witness :
    ((⟨[], [], [0], [(0, 7)], [], 1⟩ : Job Nat Nat Nat).add 0 true).queue =
      [(0, 1)] ∧
    dget (((⟨[], [], [0], [(0, 7)], [], 1⟩ : Job Nat Nat Nat).processItem 0 1
      (Outcome.ok 4)).results) 0 = some 4 :=
  c10_result_overwrite ⟨[], [], [0], [(0, 7)], [], 1⟩
    ⟨[], [], [0], [(0, 7)], [], 1⟩ 0 7 4 1 rfl

end Meanwhile
